import Mathlib

/-!
Verification of the DDR5 training code in
`litex/soc/software/liblitedram` (files `utils/eye_detection_helper.c` and
`ddr5_training.c`) against its natural-language specification.

The C code is shallowly embedded: the helper sample buffer becomes a
function `Nat → Bool` (only truthiness of the recorded `int32_t` values is
ever read), loops become fuel-indexed structural recursions where the fuel
is exactly the loop's iteration count, C `int` arithmetic is `Int`
(values stay far from the 32-bit range), C truncating division is
`Int.tdiv`, and hardware probe functions (`ctx->cs.check`,
`ctx->ca.check`, pattern write/read-back checks, ...) become oracle
parameters, universally quantified in the theorems.
-/

namespace DDR5

/-- `UNSET_DELAY` from `eye_detection_helper.h`. -/
def UNSET_DELAY : Int := 0xefff

/-! ## eye_detection_helper.c -/

/-- Loop of `find_eye_in_helper_arr`.  The C loop runs `it` over
`[0, 2*mx)`; `fuel` is the number of remaining iterations, so the loop is
entered with `fuel = 2*mx` and the invariant `it + fuel = 2*mx` holds.
When the loop finishes without the early `return`, the C epilogue checks
`helper_arr[2*max - 1]`. -/
def find_eye_aux (arr : Nat → Bool) (mx : Nat) (left right : Int) (it : Nat) :
    Nat → Int × Int
  | 0 => if arr (2*mx - 1) = true then (((2*mx : Nat) : Int), right) else (left, right)
  | fuel+1 =>
    let right' : Int := if arr it = true ∧ right = UNSET_DELAY then ((it : Nat) : Int) else right
    if arr it = false ∧ right' ≠ UNSET_DELAY then (((it : Nat) : Int), right')
    else find_eye_aux arr mx left right' (it+1) fuel

/-- `find_eye_in_helper_arr(&left, &right, max)`; result is `(left, right)`
after the call, for incoming values `left`, `right`. -/
def find_eye_in_helper_arr (arr : Nat → Bool) (mx : Nat) (left right : Int) : Int × Int :=
  find_eye_aux arr mx left right 0 (2*mx)

/-- Loop of `one_in_helper_arr` over `it ∈ [1, mx)`; entered with
`it = 1`, `fuel = mx`. -/
def one_in_loop (arr : Nat → Bool) (mx : Nat) : Nat → Nat → Int
  | _, 0 => 0
  | it, fuel+1 =>
    if it < mx then (if arr it = true then 1 else one_in_loop arr mx (it+1) fuel) else 0

/-- `one_in_helper_arr(max)`. -/
def one_in_helper_arr (arr : Nat → Bool) (mx : Nat) : Int :=
  if arr 0 = true then -1 else one_in_loop arr mx 1 mx

/-- `one_stride_helper_arr(max)`: index of the first false sample, or
`max` when samples `[0, max)` are all true. -/
def one_stride_loop (arr : Nat → Bool) (mx : Nat) : Nat → Nat → Int
  | _, 0 => (mx : Int)
  | it, fuel+1 =>
    if it < mx then (if arr it = false then ((it : Nat) : Int) else one_stride_loop arr mx (it+1) fuel)
    else (mx : Int)

def one_stride_helper_arr (arr : Nat → Bool) (mx : Nat) : Int :=
  one_stride_loop arr mx 0 mx

/-- While the scanned samples are false and `right` is unset, the loop
neither sets `right` nor returns early; an all-false tail therefore leaves
both outputs untouched. -/
lemma find_eye_aux_false_tail (arr : Nat → Bool) (mx : Nat) (left : Int) :
    ∀ fuel it, it + fuel = 2*mx →
      (∀ k, it ≤ k → k < 2*mx → arr k = false) →
      arr (2*mx - 1) = false →
      find_eye_aux arr mx left UNSET_DELAY it fuel = (left, UNSET_DELAY)
  | 0, it, _, _, hlast => by
      simp [find_eye_aux, hlast]
  | fuel+1, it, hit, hall, hlast => by
      have hlt : it < 2*mx := by omega
      have ha : arr it = false := hall it le_rfl hlt
      simp only [find_eye_aux, ha, Bool.false_eq_true, false_and, if_false, ite_self,
        ne_eq, not_true_eq_false, and_false]
      exact find_eye_aux_false_tail arr mx left fuel (it+1) (by omega)
        (fun k hk hk' => hall k (by omega) hk') hlast

/-- Once `right` holds a non-sentinel value `r`, it is never modified
again; in particular the second output of the loop is always `r`. -/
lemma find_eye_aux_right_frozen (arr : Nat → Bool) (mx : Nat) (left : Int)
    (r : Int) (hr : r ≠ UNSET_DELAY) :
    ∀ fuel it, (find_eye_aux arr mx left r it fuel).2 = r
  | 0, it => by
      by_cases h : arr (2*mx - 1) = true <;> simp [find_eye_aux, h]
  | fuel+1, it => by
      simp only [find_eye_aux, hr, and_false, if_false, ite_self]
      by_cases h : arr it = false ∧ r ≠ UNSET_DELAY
      · simp [h]
      · simp only [h, if_false]
        exact find_eye_aux_right_frozen arr mx left r hr fuel (it+1)

/-- With `right` already set to `r` and an all-true tail reaching the end
of the buffer, the loop finishes and the epilogue reports `left = 2*mx`. -/
lemma find_eye_aux_true_tail (arr : Nat → Bool) (mx : Nat) (left : Int)
    (r : Int) (hr : r ≠ UNSET_DELAY) :
    ∀ fuel it, it + fuel = 2*mx →
      (∀ k, it ≤ k → k < 2*mx → arr k = true) →
      arr (2*mx - 1) = true →
      find_eye_aux arr mx left r it fuel = (((2*mx : Nat) : Int), r)
  | 0, it, _, _, hlast => by
      simp [find_eye_aux, hlast]
  | fuel+1, it, hit, hall, hlast => by
      have hlt : it < 2*mx := by omega
      have ha : arr it = true := hall it le_rfl hlt
      simp only [find_eye_aux, ha, hr, and_false, if_false, ite_self, Bool.true_eq_false,
        false_and]
      exact find_eye_aux_true_tail arr mx left r hr fuel (it+1) (by omega)
        (fun k hk hk' => hall k (by omega) hk') hlast

/-- With `right` already set to `r` and `q` the first false sample at or
after the cursor, the loop returns early with `left = q`. -/
lemma find_eye_aux_first_false (arr : Nat → Bool) (mx : Nat) (left : Int)
    (r : Int) (hr : r ≠ UNSET_DELAY) :
    ∀ fuel it q, it + fuel = 2*mx → it ≤ q → q < 2*mx → arr q = false →
      (∀ k, it ≤ k → k < q → arr k = true) →
      find_eye_aux arr mx left r it fuel = (((q : Nat) : Int), r)
  | 0, it, q, hit, hq1, hq2, _, _ => by omega
  | fuel+1, it, q, hit, hq1, hq2, hq, hall => by
      rcases Nat.eq_or_lt_of_le hq1 with h | h
      · subst h
        simp [find_eye_aux, hq, hr]
      · have ha : arr it = true := hall it le_rfl h
        simp only [find_eye_aux, ha, hr, and_false, if_false, ite_self, Bool.true_eq_false,
          false_and]
        exact find_eye_aux_first_false arr mx left r hr fuel (it+1) q (by omega) h hq2 hq
          (fun k hk hk' => hall k (by omega) hk')

/-- With `right` unset and `p` the first true sample at or after the
cursor, the loop skips to `p`, sets `right := p` there, and continues from
`p + 1`. -/
lemma find_eye_aux_skip_false (arr : Nat → Bool) (mx : Nat) (left : Int) :
    ∀ fuel it p, it + fuel = 2*mx → it ≤ p → p < 2*mx → arr p = true →
      (∀ k, it ≤ k → k < p → arr k = false) →
      find_eye_aux arr mx left UNSET_DELAY it fuel =
        find_eye_aux arr mx left ((p : Nat) : Int) (p+1) (2*mx - (p+1))
  | 0, it, p, hit, hp1, hp2, _, _ => by omega
  | fuel+1, it, p, hit, hp1, hp2, hp, hall => by
      rcases Nat.eq_or_lt_of_le hp1 with h | h
      · subst h
        simp only [find_eye_aux, hp, Bool.true_eq_false, false_and, if_false, true_and,
          if_true, ite_self]
        have : fuel = 2*mx - (it+1) := by omega
        rw [this]
      · have ha : arr it = false := hall it le_rfl h
        simp only [find_eye_aux, ha, Bool.false_eq_true, false_and, if_false, ite_self,
          ne_eq, not_true_eq_false, and_false]
        exact find_eye_aux_skip_false arr mx left fuel (it+1) p (by omega) h hp2 hp
          (fun k hk hk' => hall k (by omega) hk')

/-- If all samples in `[it, mx)` are false, `one_in`'s loop returns 0. -/
lemma one_in_loop_none (arr : Nat → Bool) (mx : Nat) :
    ∀ fuel it, (∀ k, it ≤ k → k < mx → arr k = false) →
      one_in_loop arr mx it fuel = 0
  | 0, it, _ => rfl
  | fuel+1, it, hall => by
      by_cases h : it < mx
      · have ha : arr it = false := hall it le_rfl h
        simp only [one_in_loop, h, if_true, ha, Bool.false_eq_true, if_false]
        exact one_in_loop_none arr mx fuel (it+1) (fun k hk hk' => hall k (by omega) hk')
      · simp [one_in_loop, h]

/-- If some sample in `[it, mx)` is true and the fuel reaches it,
`one_in`'s loop returns 1. -/
lemma one_in_loop_found (arr : Nat → Bool) (mx : Nat) :
    ∀ fuel it j, j < it + fuel → it ≤ j → j < mx → arr j = true →
      one_in_loop arr mx it fuel = 1
  | 0, it, j, hfu, hj1, _, _ => by omega
  | fuel+1, it, j, hfu, hj1, hj2, hj => by
      have h : it < mx := by omega
      by_cases ha : arr it = true
      · simp [one_in_loop, h, ha]
      · have hne : it ≠ j := fun he => ha (he ▸ hj)
        simp only [one_in_loop, h, if_true, ha, if_false]
        exact one_in_loop_found arr mx fuel (it+1) j (by omega) (by omega) hj2 hj

/-- C1: `find_eye_in_helper_arr` scans samples `[0, 2*max)` and sets
`*right` to the index of the first true sample and `*left` to the index of
the first false sample strictly after `*right`; on an all-false buffer both
outputs stay `UNSET_DELAY`; on an all-true buffer it returns
`right = 0, left = 2*max`; and for a buffer whose only true samples form
one contiguous run of length `L` starting at `S` with `0 < S` and
`S + L < max`, it returns `right = S` and `left = S + L`.  (The capacity
bound `2*max ≤ 0xefff` holds for every call in the program — the helper
array is statically sized far below the `UNSET_DELAY` sentinel.) -/
theorem find_eye_in_helper_arr_spec (arr : Nat → Bool) (mx : Nat)
    (hmx : 1 ≤ mx) (hcap : 2*mx ≤ 0xefff) :
    ((∀ i, i < 2*mx → arr i = false) →
      find_eye_in_helper_arr arr mx UNSET_DELAY UNSET_DELAY = (UNSET_DELAY, UNSET_DELAY))
  ∧ ((∀ i, i < 2*mx → arr i = true) →
      find_eye_in_helper_arr arr mx UNSET_DELAY UNSET_DELAY = (((2*mx : Nat) : Int), 0))
  ∧ (∀ S L, 0 < S → 1 ≤ L → S + L < mx → (∀ i, arr i = true ↔ (S ≤ i ∧ i < S + L)) →
      find_eye_in_helper_arr arr mx UNSET_DELAY UNSET_DELAY =
        (((S + L : Nat) : Int), ((S : Nat) : Int)))
  ∧ (∀ p, p < 2*mx → arr p = true → (∀ k, k < p → arr k = false) →
      (find_eye_in_helper_arr arr mx UNSET_DELAY UNSET_DELAY).2 = ((p : Nat) : Int)
    ∧ ∀ q, p < q → q < 2*mx → arr q = false → (∀ k, p < k → k < q → arr k = true) →
        (find_eye_in_helper_arr arr mx UNSET_DELAY UNSET_DELAY).1 = ((q : Nat) : Int)) := by
  have hne : ∀ p : Nat, p < 2*mx → ((p : Nat) : Int) ≠ UNSET_DELAY := by
    intro p hp
    simp only [UNSET_DELAY]
    omega
  refine ⟨?_, ?_, ?_, ?_⟩
  · intro hall
    exact find_eye_aux_false_tail arr mx UNSET_DELAY (2*mx) 0 (by omega)
      (fun k _ hk => hall k hk) (hall _ (by omega))
  · intro hall
    unfold find_eye_in_helper_arr
    rw [find_eye_aux_skip_false arr mx UNSET_DELAY (2*mx) 0 0 (by omega) le_rfl (by omega)
      (hall 0 (by omega)) (by omega)]
    exact find_eye_aux_true_tail arr mx UNSET_DELAY 0 (hne 0 (by omega)) (2*mx - 1) 1
      (by omega) (fun k _ hk => hall k hk) (hall _ (by omega))
  · intro S L hS hL hSL hiff
    have hfalse : ∀ k, ¬ (S ≤ k ∧ k < S + L) → arr k = false := by
      intro k hk
      cases h : arr k with
      | false => rfl
      | true => exact absurd ((hiff k).1 h) hk
    unfold find_eye_in_helper_arr
    rw [find_eye_aux_skip_false arr mx UNSET_DELAY (2*mx) 0 S (by omega) (by omega) (by omega)
      ((hiff S).2 ⟨le_rfl, by omega⟩) (fun k _ hk => hfalse k (by omega))]
    exact find_eye_aux_first_false arr mx UNSET_DELAY ((S : Nat) : Int) (hne S (by omega))
      (2*mx - (S+1)) (S+1) (S+L) (by omega) (by omega) (by omega)
      (hfalse (S+L) (by omega)) (fun k hk hk' => (hiff k).2 ⟨by omega, hk'⟩)
  · intro p hp hptrue hpfirst
    constructor
    · unfold find_eye_in_helper_arr
      rw [find_eye_aux_skip_false arr mx UNSET_DELAY (2*mx) 0 p (by omega) (by omega) hp
        hptrue (fun k _ hk => hpfirst k hk)]
      exact find_eye_aux_right_frozen arr mx UNSET_DELAY ((p : Nat) : Int) (hne p hp) _ _
    · intro q hq1 hq2 hqfalse hqall
      unfold find_eye_in_helper_arr
      rw [find_eye_aux_skip_false arr mx UNSET_DELAY (2*mx) 0 p (by omega) (by omega) hp
        hptrue (fun k _ hk => hpfirst k hk)]
      rw [find_eye_aux_first_false arr mx UNSET_DELAY ((p : Nat) : Int) (hne p hp)
        (2*mx - (p+1)) (p+1) q (by omega) (by omega) hq2 hqfalse
        (fun k hk hk' => hqall k (by omega) hk')]

/-- Witness for C1: all-true buffer with `max = 1` yields
`(left, right) = (2, 0)`. -/
theorem find_eye_in_helper_arr_spec_witness :
    find_eye_in_helper_arr (fun _ => true) 1 UNSET_DELAY UNSET_DELAY = (2, 0) :=
  (find_eye_in_helper_arr_spec (fun _ => true) 1 (by decide) (by decide)).2.1
    (fun _ _ => rfl)

/-- C4: `one_in_helper_arr` returns `-1` if the sample at index 0 is
non-zero (regardless of the other samples: index-0-true dominates),
returns `1` if sample 0 is zero and some sample at an index in `[1, max)`
is non-zero, and returns `0` otherwise — a 3-way, not boolean, result. -/
theorem one_in_helper_arr_spec (arr : Nat → Bool) (mx : Nat) (hmx : 1 ≤ mx) :
    (arr 0 = true → one_in_helper_arr arr mx = -1)
  ∧ (arr 0 = false → (∃ i, 1 ≤ i ∧ i < mx ∧ arr i = true) → one_in_helper_arr arr mx = 1)
  ∧ (arr 0 = false → (∀ i, 1 ≤ i → i < mx → arr i = false) → one_in_helper_arr arr mx = 0) := by
  refine ⟨?_, ?_, ?_⟩
  · intro h0
    simp [one_in_helper_arr, h0]
  · rintro h0 ⟨i, hi1, hi2, hi⟩
    simp only [one_in_helper_arr, h0, Bool.false_eq_true, if_false]
    exact one_in_loop_found arr mx mx 1 i (by omega) hi1 hi2 hi
  · intro h0 hall
    simp only [one_in_helper_arr, h0, Bool.false_eq_true, if_false]
    exact one_in_loop_none arr mx mx 1 (fun k hk hk' => hall k hk hk')

/-- Witness for C4: sample 0 false, sample 1 true, `max = 2` gives `1`. -/
theorem one_in_helper_arr_spec_witness :
    one_in_helper_arr (fun i => decide (i = 1)) 2 = 1 :=
  (one_in_helper_arr_spec (fun i => decide (i = 1)) 2 (by decide)).2.1 rfl
    ⟨1, le_rfl, by decide, by decide⟩

/-! ## ddr5_training.c: eye bookkeeping (`eye_t`, `DEFAULT_EYE`) -/

inductive EyeState where
  | BEFORE
  | INSIDE
  | AFTER
deriving DecidableEq

/-- `eye_t`; the C field `end` is called `stop` here (`end` is reserved). -/
structure Eye where
  state : EyeState
  start : Int
  center : Int
  stop : Int
deriving DecidableEq

def DEFAULT_EYE : Eye := ⟨.BEFORE, -1, -1, -1⟩

/-! ## write_leveling: the fixed fractional-tCK adjustments

In `write_leveling`, before `wltm_align_internal_cycle` the code runs
`transition_cycle -= 1; transition_delay += max_delay_taps/4;` followed by
a carry normalization, and after the second `wltm_align_to_eye_edge` it
runs `transition_cycle += 1; transition_delay += max_delay_taps/4;` with
the same normalization.  C integer division is `Int.tdiv`. -/

def wl_adjust_before (mx cycle delay : Int) : Int × Int :=
  let cycle := cycle - 1
  let delay := delay + mx.tdiv 4
  if delay ≥ mx then (cycle + 1, delay - mx) else (cycle, delay)

def wl_adjust_after (mx cycle delay : Int) : Int × Int :=
  let cycle := cycle + 1
  let delay := delay + mx.tdiv 4
  if delay ≥ mx then (cycle + 1, delay - mx) else (cycle, delay)

/-- C8: when `max_delay_taps` is divisible by 4 and `0 ≤ delay < max_delay_taps`,
the pre-internal-write-leveling adjustment changes the total offset
`cycle*max_delay_taps + delay` by exactly `-(3/4)*max_delay_taps`
(i.e. `-3*(max_delay_taps/4)`, -0.75 tCK) and the post-adjustment changes
it by exactly `+(5/4)*max_delay_taps` (+1.25 tCK), and both leave the
delay component in `[0, max_delay_taps)` by carrying into the cycle. -/
theorem write_leveling_adjust_spec (mx cycle delay : Int) (h4 : 4 ∣ mx)
    (hpos : 0 < mx) (hlo : 0 ≤ delay) (hhi : delay < mx) :
    ((wl_adjust_before mx cycle delay).1 * mx + (wl_adjust_before mx cycle delay).2
        = cycle * mx + delay - 3 * mx.tdiv 4
      ∧ 0 ≤ (wl_adjust_before mx cycle delay).2 ∧ (wl_adjust_before mx cycle delay).2 < mx)
  ∧ ((wl_adjust_after mx cycle delay).1 * mx + (wl_adjust_after mx cycle delay).2
        = cycle * mx + delay + 5 * mx.tdiv 4
      ∧ 0 ≤ (wl_adjust_after mx cycle delay).2 ∧ (wl_adjust_after mx cycle delay).2 < mx) := by
  obtain ⟨q, hq4⟩ := h4
  have hdiv : mx.tdiv 4 = q := by
    rw [hq4]
    exact Int.mul_tdiv_cancel_left q (by norm_num)
  have hq : 0 < q := by omega
  simp only [wl_adjust_before, wl_adjust_after, hdiv]
  constructor
  · by_cases h : delay + q ≥ mx
    · simp only [h, if_true]
      refine ⟨by rw [hq4]; ring, by omega, by omega⟩
    · simp only [h, if_false]
      refine ⟨by rw [hq4]; ring, by omega, by omega⟩
  · by_cases h : delay + q ≥ mx
    · simp only [h, if_true]
      refine ⟨by rw [hq4]; ring, by omega, by omega⟩
    · simp only [h, if_false]
      refine ⟨by rw [hq4]; ring, by omega, by omega⟩

/-- Witness for C8 at `mx = 8`, `cycle = 1`, `delay = 7`. -/
theorem write_leveling_adjust_spec_witness :
    (4 ∣ (8:Int)) ∧ (0:Int) < 8 ∧ (0:Int) ≤ 7 ∧ (7:Int) < 8 ∧
    (((wl_adjust_before 8 1 7).1 * 8 + (wl_adjust_before 8 1 7).2
        = 1 * 8 + 7 - 3 * (8:Int).tdiv 4
      ∧ 0 ≤ (wl_adjust_before 8 1 7).2 ∧ (wl_adjust_before 8 1 7).2 < 8)
    ∧ ((wl_adjust_after 8 1 7).1 * 8 + (wl_adjust_after 8 1 7).2
        = 1 * 8 + 7 + 5 * (8:Int).tdiv 4
      ∧ 0 ≤ (wl_adjust_after 8 1 7).2 ∧ (wl_adjust_after 8 1 7).2 < 8)) :=
  ⟨⟨2, by norm_num⟩, by norm_num, by norm_num, by norm_num,
    write_leveling_adjust_spec 8 1 7 ⟨2, by norm_num⟩ (by norm_num) (by norm_num) (by norm_num)⟩

/-! ## moduel_dm_scan (C10)

`check delay byte` stands for the value
`write_dm_lfsr_check(ctx, channel, rank, module, byte, mr5)` returned at
a given DM output delay — the C caller discards it, which the embedding
mirrors with a discarded `let`. -/

/-- The byte loop `for (byte = 0; byte < 16 && works; ++byte)
{ write_dm_lfsr_check(...); }`: the call's result is dropped. -/
def dm_byte_loop (check : Nat → Bool) : Nat → Nat → Bool → Bool
  | _, 0, works => works
  | byte, fuel+1, works =>
    if byte < 16 ∧ works = true then
      dm_byte_loop check (byte+1) fuel (let _ := check byte; works)
    else works

/-- The DM delay loop of `moduel_dm_scan`. -/
def moduel_dm_scan_loop (mx : Nat) (check : Nat → Nat → Bool) :
    Nat → Nat → Eye → Eye
  | _, 0, eye => eye
  | delay, fuel+1, eye =>
    if delay < mx ∧ eye.state ≠ .AFTER then
      let works : Bool := dm_byte_loop (check delay) 0 16 true
      let eye :=
        if works = true ∧ eye.state = .BEFORE then
          { eye with start := ((delay : Nat) : Int), state := .INSIDE }
        else eye
      let eye :=
        if works = false ∧ eye.state = .INSIDE then
          { eye with stop := ((delay : Nat) : Int), state := .AFTER }
        else if delay = mx - 1 ∧ eye.state = .INSIDE then
          { eye with stop := ((delay : Nat) : Int) + 1, state := .AFTER }
        else eye
      moduel_dm_scan_loop mx check (delay+1) fuel eye
    else eye

/-- `moduel_dm_scan` (the source's spelling): returns the `good` flag, the
DM eye, and the programmed middle delay `(start + end)/2`. -/
def moduel_dm_scan (mx : Nat) (check : Nat → Nat → Bool) : Bool × Eye × Int :=
  let eye := moduel_dm_scan_loop mx check 0 mx DEFAULT_EYE
  let good := decide (eye.state = .AFTER)
  let middle := (eye.start + eye.stop).tdiv 2
  (good, eye, middle)

lemma dm_byte_loop_const (check : Nat → Bool) :
    ∀ fuel byte works, dm_byte_loop check byte fuel works = works
  | 0, _, _ => rfl
  | fuel+1, byte, works => by
      simp only [dm_byte_loop]
      split
      · exact dm_byte_loop_const check fuel (byte+1) works
      · rfl

lemma moduel_dm_scan_loop_after (mx : Nat) (check : Nat → Nat → Bool) :
    ∀ fuel delay eye, eye.state = .AFTER →
      moduel_dm_scan_loop mx check delay fuel eye = eye
  | 0, _, _, _ => rfl
  | fuel+1, delay, eye, h => by
      simp [moduel_dm_scan_loop, h]

lemma moduel_dm_scan_loop_inside (mx : Nat) (check : Nat → Nat → Bool) (s : Int) :
    ∀ fuel delay, delay + fuel = mx → delay < mx →
      moduel_dm_scan_loop mx check delay fuel ⟨.INSIDE, s, -1, -1⟩
        = ⟨.AFTER, s, -1, ((mx : Nat) : Int)⟩
  | 0, delay, hsum, hlt => by omega
  | fuel+1, delay, hsum, hlt => by
      rw [moduel_dm_scan_loop]
      simp only [hlt, ne_eq, true_and, if_true, dm_byte_loop_const, reduceCtorEq,
        not_false_eq_true, and_false, Bool.true_eq_false, false_and, if_false, and_true]
      by_cases hlast : delay = mx - 1
      · simp only [hlast, if_true]
        rw [moduel_dm_scan_loop_after mx check fuel _ _ rfl]
        have : ((mx - 1 : Nat) : Int) + 1 = ((mx : Nat) : Int) := by omega
        rw [this]
      · simp only [hlast, false_and, if_false]
        exact moduel_dm_scan_loop_inside mx check s fuel (delay+1) (by omega) (by omega)

/-- C10: the per-tap verdict in `moduel_dm_scan` never reads the result of
`write_dm_lfsr_check`, so for every behavior of the check every tap is
recorded as working: the DM eye always spans `[0, max_delay_taps)`
(`start = 0`, `end = max_delay_taps`), the DM delay programmed is
`max_delay_taps/2`, and the scan always reports success. -/
theorem moduel_dm_scan_spec (mx : Nat) (check : Nat → Nat → Bool) (hmx : 1 ≤ mx) :
    moduel_dm_scan mx check
      = (true, ⟨.AFTER, 0, -1, ((mx : Nat) : Int)⟩, ((mx : Nat) : Int).tdiv 2) := by
  have key : moduel_dm_scan_loop mx check 0 mx DEFAULT_EYE
      = ⟨.AFTER, 0, -1, ((mx : Nat) : Int)⟩ := by
    match mx, hmx with
    | 1, _ => rfl
    | (n+2), _ =>
      show moduel_dm_scan_loop (n+2) check 1 (n+1) ⟨.INSIDE, 0, -1, -1⟩ = _
      exact moduel_dm_scan_loop_inside (n+2) check 0 (n+1) 1 (by omega) (by omega)
  simp [moduel_dm_scan, key]

/-- Witness for C10 at `mx = 2` with an always-failing check: the scan
still succeeds with eye `[0, 2)` and programmed delay `1`. -/
theorem moduel_dm_scan_spec_witness :
    moduel_dm_scan 2 (fun _ _ => false) = (true, ⟨.AFTER, 0, -1, 2⟩, 1) :=
  moduel_dm_scan_spec 2 (fun _ _ => false) (by decide)

/-! ## sdram_ddr5_read_training control flow (C6)

`trainOk channel rank` stands for the result of
`rank_read_training(channel, rank, ...)` — steps (a) preamble search and
(b) data scan — and `checkOk channel rank` for the result of
`rank_read_check(channel, rank, ...)` — step (c), the serial-number
readback (print-only, cannot fail) plus the optional `simple_read_check`.
`keepGoing` is the `KEEP_GOING_ON_DRAM_ERROR` build flag (not defined in
any build file of the repository, so the default is `false`).  The model
additionally returns the list of `(channel, rank)` pairs whose training
was entered, to make "aborts the flow" observable. -/

def rt_rank_loop (trainOk checkOk : Nat → Nat → Bool) (keepGoing : Bool) (channel : Nat) :
    Nat → Nat → Bool → List (Nat × Nat) → Bool × List (Nat × Nat) × Bool
  | _, 0, good, visited => (good, visited, false)
  | rank, remaining+1, good, visited =>
    let visited := visited ++ [(channel, rank)]
    let good := good && trainOk channel rank
    if keepGoing = false ∧ good = false then (good, visited, true)
    else
      let good := good && checkOk channel rank
      if keepGoing = false ∧ good = false then (good, visited, true)
      else rt_rank_loop trainOk checkOk keepGoing channel (rank+1) remaining good visited

def rt_channel_loop (trainOk checkOk : Nat → Nat → Bool) (keepGoing : Bool) (ranks : Nat) :
    Nat → Nat → Bool → List (Nat × Nat) → Bool × List (Nat × Nat)
  | _, 0, good, visited => (if keepGoing then true else good, visited)
  | channel, remaining+1, good, visited =>
    let r := rt_rank_loop trainOk checkOk keepGoing channel 0 ranks good visited
    if r.2.2 then (r.1, r.2.1)
    else rt_channel_loop trainOk checkOk keepGoing ranks (channel+1) remaining r.1 r.2.1

def sdram_ddr5_read_training (channels ranks : Nat) (trainOk checkOk : Nat → Nat → Bool)
    (keepGoing : Bool) : Bool × List (Nat × Nat) :=
  rt_channel_loop trainOk checkOk keepGoing ranks 0 channels true []

/-- Counterexample to C6: in the default (fail-fast) build a failure in
step (c) — here `checkOk` failing at channel 0, rank 0 while (a)/(b)
pass — makes read training return failure immediately: rank `(0, 1)` is
never trained, so the (c) failure did abort the read-training flow. -/
theorem read_training_check_failure_aborts_cex :
    sdram_ddr5_read_training 1 2 (fun _ _ => true) (fun _ _ => false) false
        = (false, [(0, 0)])
    ∧ ((0, 1) ∈ ([((0:Nat), (0:Nat)), (0, 1)] : List (Nat × Nat))
        ∧ (0, 1) ∉ (sdram_ddr5_read_training 1 2 (fun _ _ => true) (fun _ _ => false) false).2) := by
  decide

/-- C6 amended: under the default fail-fast build (`KEEP_GOING_ON_DRAM_ERROR`
undefined), a failure in the verification step (c) is latched into the
aggregate flag and aborts the read-training flow exactly like failures in
(a) or (b): with (a)/(b) passing and (c) failing on the first rank, the
flow returns `false` having visited only `(0, 0)`.  (The serial-number
readback itself is print-only and cannot fail; only the scratch-pad
`simple_read_check` contributes to (c)'s result.) -/
theorem read_training_check_failure_aborts (channels ranks : Nat)
    (trainOk checkOk : Nat → Nat → Bool)
    (hch : 0 < channels) (hrk : 0 < ranks)
    (ht : trainOk 0 0 = true) (hc : checkOk 0 0 = false) :
    sdram_ddr5_read_training channels ranks trainOk checkOk false = (false, [(0, 0)]) := by
  obtain ⟨c, rfl⟩ : ∃ c, channels = c + 1 := ⟨channels - 1, by omega⟩
  obtain ⟨r, rfl⟩ : ∃ r, ranks = r + 1 := ⟨ranks - 1, by omega⟩
  simp [sdram_ddr5_read_training, rt_channel_loop, rt_rank_loop, ht, hc]

/-- Witness for the amended C6. -/
theorem read_training_check_failure_aborts_witness :
    sdram_ddr5_read_training 1 2 (fun _ _ => true) (fun c r => decide (c + r ≠ 0)) false
      = (false, [(0, 0)]) :=
  read_training_check_failure_aborts 1 2 (fun _ _ => true) (fun c r => decide (c + r ≠ 0))
    (by decide) (by decide) rfl (by decide)

/-! ## Helper-array capacity across one CS/CA scan pass (C9)

The helper array holds `2*MAX(64, SDRAM_PHY_DELAYS)` entries and
`set_helper_arr_value_and_advance` writes at a cursor that only
`clear_helper_arr` resets.  A pass of `CS_scan` / `CA_scan` is abstracted
as the trace of `clear` / `record` events it performs; the branch outcomes
(the RCD polarization retry, and `one_in_helper_arr`'s 3-way result that
drives the `switch` with its `case -1 → case 1` fallthrough) are
universally quantified parameters. -/

inductive HEv where
  | clear
  | record
deriving DecidableEq

def recs (n : Nat) : List HEv := List.replicate n .record

/-- Event trace of one `CS_scan(ctx, channel, rank)` call:
initial `clear_helper_arr` + initial `CS_scan_single` (`taps` records);
optionally (HOST_RCD wraparound retry) another clear + scan; then the
`switch (one_in_helper_arr(...))`: case -1 does clear + scan and falls
through into case 1's scan, case 1 does one scan, case 0 does clear +
two scans. -/
def CS_scan_trace (taps : Nat) (rcdRetry : Bool) (classify : Int) : List HEv :=
  [.clear] ++ recs taps
  ++ (if rcdRetry then [.clear] ++ recs taps else [])
  ++ (if classify = -1 then [.clear] ++ recs taps ++ recs taps
      else if classify = 1 then recs taps
      else if classify = 0 then [.clear] ++ recs taps ++ recs taps
      else [])

/-- Event trace of one `CA_scan(ctx, channel, rank, address)` call:
`clear_helper_arr` then two `CA_scan_single` passes of `taps` records. -/
def CA_scan_trace (taps : Nat) : List HEv := [.clear] ++ recs taps ++ recs taps

/-- `sizeof(helper_arr)/sizeof(int32_t)` with the C macro
`MAX(a, b) = (a > b ? a : b)`: `2*MAX(64, SDRAM_PHY_DELAYS)`. -/
def helper_arr_capacity (taps : Nat) : Nat := 2 * (if 64 > taps then 64 else taps)

/-- Fold step tracking (records since last clear, running maximum). -/
def segStep : Nat × Nat → HEv → Nat × Nat
  | (_, best), .clear => (0, best)
  | (cur, best), .record => (cur + 1, if best < cur + 1 then cur + 1 else best)

/-- Largest number of consecutive records since the last clear (or since
the start) anywhere in the trace: the furthest the write cursor gets. -/
def maxRun (es : List HEv) : Nat := (es.foldl segStep (0, 0)).2

lemma segStep_recs : ∀ n cur best, cur ≤ best →
    (recs n).foldl segStep (cur, best)
      = (cur + n, if best < cur + n then cur + n else best)
  | 0, cur, best, h => by
      simp only [recs, List.replicate, List.foldl_nil, Nat.add_zero]
      rw [if_neg (by omega)]
  | n+1, cur, best, h => by
      show (recs n).foldl segStep (segStep (cur, best) .record) = _
      rw [show segStep (cur, best) .record
            = (cur + 1, if best < cur + 1 then cur + 1 else best) from rfl]
      rw [segStep_recs n (cur + 1) _ (by split_ifs <;> omega)]
      simp only [Prod.mk.injEq]
      constructor
      · omega
      · split_ifs <;> omega

lemma segStep_clear_app (p : Nat × Nat) : segStep p .clear = (0, p.2) := by
  cases p
  rfl

/-- C9: in one CS or CA scan pass, for every `max_delay_taps`, every branch
outcome (retry decision, 3-way classification) and hence every behavior of
the hardware checks, the number of samples recorded since the preceding
`clear_helper_arr` never exceeds `2*max(64, max_delay_taps)` — the
statically-allocated capacity of the helper array — so the cursor never
writes out of bounds. -/
theorem scan_pass_capacity (taps : Nat) (rcdRetry : Bool) (classify : Int) :
    maxRun (CS_scan_trace taps rcdRetry classify) ≤ helper_arr_capacity taps
  ∧ maxRun (CA_scan_trace taps) ≤ helper_arr_capacity taps := by
  have hinit : (recs taps).foldl segStep (0, 0) = (taps, taps) := by
    rw [segStep_recs taps 0 0 le_rfl]
    simp only [Prod.mk.injEq, Nat.zero_add]
    constructor
    · trivial
    · split_ifs <;> omega
  have hsame : (recs taps).foldl segStep (0, taps) = (taps, taps) := by
    rw [segStep_recs taps 0 taps (Nat.zero_le taps)]
    simp only [Prod.mk.injEq, Nat.zero_add]
    constructor
    · trivial
    · split_ifs <;> omega
  have hdbl : (recs taps).foldl segStep (taps, taps) = (taps + taps, taps + taps) := by
    rw [segStep_recs taps taps taps le_rfl]
    simp only [Prod.mk.injEq]
    constructor
    · trivial
    · split_ifs <;> omega
  have hbound2 : taps + taps ≤ helper_arr_capacity taps := by
    unfold helper_arr_capacity
    split_ifs <;> omega
  have hbound1 : taps ≤ helper_arr_capacity taps := by
    unfold helper_arr_capacity
    split_ifs <;> omega
  constructor
  · show ((CS_scan_trace taps rcdRetry classify).foldl segStep (0, 0)).2 ≤ _
    unfold CS_scan_trace
    cases rcdRetry
    · rw [if_neg (by simp)]
      by_cases hc1 : classify = -1
      · rw [if_pos hc1]
        simp only [List.foldl_append, List.singleton_append, List.foldl_cons,
          List.foldl_nil, segStep_clear_app, hinit, hsame, hdbl]
        exact hbound2
      · rw [if_neg hc1]
        by_cases hc2 : classify = 1
        · rw [if_pos hc2]
          simp only [List.foldl_append, List.singleton_append, List.foldl_cons,
            List.foldl_nil, segStep_clear_app, hinit, hsame, hdbl]
          exact hbound2
        · rw [if_neg hc2]
          by_cases hc3 : classify = 0
          · rw [if_pos hc3]
            simp only [List.foldl_append, List.singleton_append, List.foldl_cons,
              List.foldl_nil, segStep_clear_app, hinit, hsame, hdbl]
            exact hbound2
          · rw [if_neg hc3]
            simp only [List.foldl_append, List.singleton_append, List.foldl_cons,
              List.foldl_nil, segStep_clear_app, hinit, hsame, hdbl]
            exact hbound1
    · rw [if_pos rfl]
      by_cases hc1 : classify = -1
      · rw [if_pos hc1]
        simp only [List.foldl_append, List.singleton_append, List.foldl_cons,
          List.foldl_nil, segStep_clear_app, hinit, hsame, hdbl]
        exact hbound2
      · rw [if_neg hc1]
        by_cases hc2 : classify = 1
        · rw [if_pos hc2]
          simp only [List.foldl_append, List.singleton_append, List.foldl_cons,
            List.foldl_nil, segStep_clear_app, hinit, hsame, hdbl]
          exact hbound2
        · rw [if_neg hc2]
          by_cases hc3 : classify = 0
          · rw [if_pos hc3]
            simp only [List.foldl_append, List.singleton_append, List.foldl_cons,
              List.foldl_nil, segStep_clear_app, hinit, hsame, hdbl]
            exact hbound2
          · rw [if_neg hc3]
            simp only [List.foldl_append, List.singleton_append, List.foldl_cons,
              List.foldl_nil, segStep_clear_app, hinit, hsame, hdbl]
            exact hbound1
  · show ((CA_scan_trace taps).foldl segStep (0, 0)).2 ≤ _
    unfold CA_scan_trace
    simp only [List.foldl_append, List.singleton_append, List.foldl_cons,
      List.foldl_nil, segStep_clear_app, hinit, hsame, hdbl]
    exact hbound2

/-! ## CK_CS_CA_finalize_timings (C2)

`cs` is the flattened list of per-rank `ctx->cs.delays[channel][rank]`
pairs `(right, left)` and `ca` the per-line `ctx->ca.delays[channel][line]`
pairs for the processed channel(s); `T = ctx->max_delay_taps`.
`CS_CA_calculate_midpoints` writes `(right+left)/2` (C truncating
division) into each `final_delays` slot while folding the running
`MIN`/`MAX`; `CK_CS_CA_finalize_timings` then programs the clock to
`(T - min) % T` and `CS_CA_set_adjusted_delays` subtracts `min` from every
`final_delays` entry. -/

/-- The C macro `MIN(a, b) = (a < b ? a : b)`. -/
def cmin (a b : Int) : Int := if a < b then a else b

/-- The C macro `MAX(a, b) = (a > b ? a : b)`. -/
def cmax (a b : Int) : Int := if a > b then a else b

/-- Eye midpoint `(delays[...][0] + delays[...][1])/2`, C division. -/
def mid (p : Int × Int) : Int := (p.1 + p.2).tdiv 2

/-- Per-signal loop body of `CS_CA_calculate_midpoints`: append the
midpoint to the `final_delays` being built and fold `*min` / `*max`. -/
def midpoint_fold (ds : List (Int × Int)) (acc : List Int × Int × Int) :
    List Int × Int × Int :=
  ds.foldl (fun acc p =>
    (acc.1 ++ [mid p], cmin acc.2.1 (mid p), cmax acc.2.2 (mid p))) acc

/-- `CK_CS_CA_finalize_timings`: result is
`(new_ckdly, adjusted CS final_delays, adjusted CA final_delays)`. -/
def CK_CS_CA_finalize_timings (cs ca : List (Int × Int)) (T : Int) :
    Int × List Int × List Int :=
  let acc1 := midpoint_fold cs ([], T, -T)
  let acc2 := midpoint_fold ca ([], acc1.2.1, acc1.2.2)
  let new_ckdly := (T - acc2.2.1).tmod T
  (new_ckdly, acc1.1.map (fun d => d - acc2.2.1), acc2.1.map (fun d => d - acc2.2.1))

lemma midpoint_fold_eq : ∀ (ds : List (Int × Int)) (l0 : List Int) (mn mx : Int),
    midpoint_fold ds (l0, mn, mx)
      = (l0 ++ ds.map mid, (ds.map mid).foldl cmin mn, (ds.map mid).foldl cmax mx)
  | [], l0, mn, mx => by simp [midpoint_fold]
  | p :: ds, l0, mn, mx => by
      show midpoint_fold ds (l0 ++ [mid p], cmin mn (mid p), cmax mx (mid p)) = _
      rw [midpoint_fold_eq ds (l0 ++ [mid p]) (cmin mn (mid p)) (cmax mx (mid p))]
      simp [List.append_assoc]

lemma foldl_cmin_le_init : ∀ (l : List Int) (a : Int), l.foldl cmin a ≤ a
  | [], a => le_rfl
  | x :: l, a => by
      have h1 := foldl_cmin_le_init l (cmin a x)
      have h2 : cmin a x ≤ a := by
        unfold cmin
        split_ifs <;> omega
      calc List.foldl cmin (cmin a x) l ≤ cmin a x := h1
        _ ≤ a := h2

lemma foldl_cmin_le_mem : ∀ (l : List Int) (a x : Int), x ∈ l → l.foldl cmin a ≤ x
  | [], a, x, hx => by cases hx
  | y :: l, a, x, hx => by
      rcases List.mem_cons.mp hx with h | h
      · subst h
        have h1 := foldl_cmin_le_init l (cmin a x)
        have h2 : cmin a x ≤ x := by
          unfold cmin
          split_ifs <;> omega
        calc List.foldl cmin (cmin a x) l ≤ cmin a x := h1
          _ ≤ x := h2
      · exact foldl_cmin_le_mem l (cmin a y) x h

lemma foldl_cmin_eq_init_or_mem : ∀ (l : List Int) (a : Int),
    l.foldl cmin a = a ∨ l.foldl cmin a ∈ l
  | [], a => Or.inl rfl
  | y :: l, a => by
      show List.foldl cmin (cmin a y) l = a ∨ List.foldl cmin (cmin a y) l ∈ y :: l
      rcases foldl_cmin_eq_init_or_mem l (cmin a y) with h | h
      · rw [h]
        unfold cmin
        split_ifs
        · exact Or.inl rfl
        · exact Or.inr (List.mem_cons_self y l)
      · exact Or.inr (List.mem_cons_of_mem y h)

/-- C2: after `CK_CS_CA_finalize_timings` on successfully trained CS/CA
eyes (at least one midpoint does not exceed `max_delay_taps`, which every
trained eye satisfies), with `m` the minimum midpoint `(right+left)/2`
over all CS ranks and CA lines: the programmed clock delay is
`(max_delay_taps - m) mod max_delay_taps`, every CS/CA final delay has
been reduced by exactly `m`, the minimum adjusted final delay is 0, and no
adjusted final delay is negative. -/
theorem CK_CS_CA_finalize_timings_spec (cs ca : List (Int × Int)) (T : Int)
    (hT : 1 ≤ T) (hmin : ∃ p ∈ cs ++ ca, mid p ≤ T) :
    ∃ m, m ∈ (cs ++ ca).map mid ∧ (∀ x ∈ (cs ++ ca).map mid, m ≤ x)
      ∧ (CK_CS_CA_finalize_timings cs ca T).1 = (T - m) % T
      ∧ (CK_CS_CA_finalize_timings cs ca T).2.1 = cs.map (fun p => mid p - m)
      ∧ (CK_CS_CA_finalize_timings cs ca T).2.2 = ca.map (fun p => mid p - m)
      ∧ (0 : Int) ∈ (CK_CS_CA_finalize_timings cs ca T).2.1
          ++ (CK_CS_CA_finalize_timings cs ca T).2.2
      ∧ ∀ d ∈ (CK_CS_CA_finalize_timings cs ca T).2.1
          ++ (CK_CS_CA_finalize_timings cs ca T).2.2, 0 ≤ d := by
  have hunfold : CK_CS_CA_finalize_timings cs ca T
      = ((T - ((cs ++ ca).map mid).foldl cmin T).tmod T,
         (cs.map mid).map (fun d => d - ((cs ++ ca).map mid).foldl cmin T),
         (ca.map mid).map (fun d => d - ((cs ++ ca).map mid).foldl cmin T)) := by
    unfold CK_CS_CA_finalize_timings
    simp only [midpoint_fold_eq, List.nil_append]
    simp [List.map_append, List.foldl_append]
  set F := ((cs ++ ca).map mid).foldl cmin T with hF
  have hFle : ∀ x ∈ (cs ++ ca).map mid, F ≤ x :=
    fun x hx => foldl_cmin_le_mem _ T x hx
  have hFinit : F ≤ T := foldl_cmin_le_init _ T
  have hFmem : F ∈ (cs ++ ca).map mid := by
    rcases foldl_cmin_eq_init_or_mem ((cs ++ ca).map mid) T with h | h
    · obtain ⟨p, hp, hple⟩ := hmin
      have hmem : mid p ∈ (cs ++ ca).map mid := List.mem_map_of_mem mid hp
      have h1 : F ≤ mid p := hFle _ hmem
      have h2 : mid p = F := by omega
      rw [← h2]
      exact hmem
    · exact h
  refine ⟨F, hFmem, hFle, ?_, ?_, ?_, ?_, ?_⟩
  · rw [hunfold]
    exact Int.tmod_eq_emod (by omega) (by omega)
  · rw [hunfold]
    simp [List.map_map]
  · rw [hunfold]
    simp [List.map_map]
  · rw [hunfold]
    rw [List.map_append] at hFmem
    rcases List.mem_append.mp hFmem with h | h
    · refine List.mem_append.mpr (Or.inl ?_)
      obtain ⟨x, hx, hxe⟩ := List.mem_map.mp h
      exact List.mem_map.mpr ⟨F, by rw [← hxe] at *; exact List.mem_map_of_mem mid hx, by omega⟩
    · refine List.mem_append.mpr (Or.inr ?_)
      obtain ⟨x, hx, hxe⟩ := List.mem_map.mp h
      exact List.mem_map.mpr ⟨F, by rw [← hxe] at *; exact List.mem_map_of_mem mid hx, by omega⟩
  · rw [hunfold]
    intro d hd
    rcases List.mem_append.mp hd with h | h
    · obtain ⟨x, hx, hxe⟩ := List.mem_map.mp h
      have hxe' : x - F = d := hxe
      have : F ≤ x := hFle x (by
        rw [List.map_append]
        exact List.mem_append.mpr (Or.inl hx))
      omega
    · obtain ⟨x, hx, hxe⟩ := List.mem_map.mp h
      have hxe' : x - F = d := hxe
      have : F ≤ x := hFle x (by
        rw [List.map_append]
        exact List.mem_append.mpr (Or.inr hx))
      omega

/-- Witness for C2: one CS rank with eye `(2, 6)` and one CA line with eye
`(0, 4)` at `T = 8`: midpoints `{4, 2}`, minimum `2`, clock delay
`(8-2) % 8 = 6`, adjusted delays `[2]` and `[0]`. -/
theorem CK_CS_CA_finalize_timings_spec_witness :
    ∃ m, m ∈ ([((2:Int), (6:Int))] ++ [((0:Int), (4:Int))]).map mid
      ∧ (∀ x ∈ ([((2:Int), (6:Int))] ++ [((0:Int), (4:Int))]).map mid, m ≤ x)
      ∧ (CK_CS_CA_finalize_timings [(2, 6)] [(0, 4)] 8).1 = (8 - m) % 8
      ∧ (CK_CS_CA_finalize_timings [(2, 6)] [(0, 4)] 8).2.1
          = [((2:Int), (6:Int))].map (fun p => mid p - m)
      ∧ (CK_CS_CA_finalize_timings [(2, 6)] [(0, 4)] 8).2.2
          = [((0:Int), (4:Int))].map (fun p => mid p - m)
      ∧ (0 : Int) ∈ (CK_CS_CA_finalize_timings [(2, 6)] [(0, 4)] 8).2.1
          ++ (CK_CS_CA_finalize_timings [(2, 6)] [(0, 4)] 8).2.2
      ∧ ∀ d ∈ (CK_CS_CA_finalize_timings [(2, 6)] [(0, 4)] 8).2.1
          ++ (CK_CS_CA_finalize_timings [(2, 6)] [(0, 4)] 8).2.2, 0 ≤ d :=
  CK_CS_CA_finalize_timings_spec [(2, 6)] [(0, 4)] 8 (by norm_num)
    ⟨(2, 6), by simp, by decide⟩

/-! ## CA_training (C5)

`scan rank line` abstracts one `CA_scan` + `find_eye_in_helper_arr`
round for `(rank, line)`: `some (right, left)` when a window was found in
the doubled `[0, 2*max_delay_taps)` domain, `none` when either edge stayed
`UNSET_DELAY` (the `*success = 0` early-return path).  `T` is
`ctx->max_delay_taps`; the per-line array starts from `CA_setup_array`'s
`(-T, T)` and each found window is normalized by subtracting `T` from both
edges before widening the envelope. -/

/-- `CA_setup_array`: initial per-line `(delays[line][0], delays[line][1])`. -/
def CA_setup_array (T : Int) : Nat → Int × Int := fun _ => (-T, T)

/-- The per-line envelope update at the end of `CA_training`'s inner loop:
normalize the raw window by one period and widen `[right, left]`. -/
def ca_update (T : Int) (d w : Int × Int) : Int × Int :=
  let r := w.1 - T
  let l := w.2 - T
  (if r > d.1 then r else d.1, if l < d.2 then l else d.2)

/-- Address-line loop of `CA_training` for one rank. -/
def CA_rank_lines (T : Int) (sc : Nat → Option (Int × Int)) :
    (Nat → Int × Int) → Nat → Nat → Option (Nat → Int × Int)
  | delays, _, 0 => some delays
  | delays, line, remaining+1 =>
    match sc line with
    | none => none
    | some w =>
        CA_rank_lines T sc (Function.update delays line (ca_update T (delays line) w))
          (line+1) remaining

/-- Rank loop of `CA_training`. -/
def CA_rank_loop (T : Int) (lines : Nat) (scan : Nat → Nat → Option (Int × Int)) :
    (Nat → Int × Int) → Nat → Nat → Option (Nat → Int × Int)
  | delays, _, 0 => some delays
  | delays, rank, remaining+1 =>
    match CA_rank_lines T (scan rank) delays 0 lines with
    | none => none
    | some delays' => CA_rank_loop T lines scan delays' (rank+1) remaining

/-- `CA_training` over `ranks` ranks and `lines` address lines, returning
the final per-line delay envelopes, or `none` when some line produced no
window (`*success = 0`). -/
def CA_training (T : Int) (ranks lines : Nat) (scan : Nat → Nat → Option (Int × Int)) :
    Option (Nat → Int × Int) :=
  CA_rank_loop T lines scan (CA_setup_array T) 0 ranks

lemma CA_rank_lines_some (T : Int) (sc : Nat → Option (Int × Int))
    (w : Nat → Int × Int) :
    ∀ remaining line0 delays, (∀ ln, line0 ≤ ln → ln < line0 + remaining → sc ln = some (w ln)) →
      CA_rank_lines T sc delays line0 remaining
        = some (fun ln => if line0 ≤ ln ∧ ln < line0 + remaining
            then ca_update T (delays ln) (w ln) else delays ln)
  | 0, line0, delays, _ => by
      simp only [CA_rank_lines]
      congr 1
      funext ln
      rw [if_neg (by omega)]
  | remaining+1, line0, delays, hall => by
      have h0 : sc line0 = some (w line0) := hall line0 le_rfl (by omega)
      simp only [CA_rank_lines, h0]
      rw [CA_rank_lines_some T sc w remaining (line0+1) _
        (fun ln h1 h2 => hall ln (by omega) (by omega))]
      congr 1
      funext ln
      by_cases hln : line0 + 1 ≤ ln ∧ ln < line0 + 1 + remaining
      · rw [if_pos hln, if_pos (by omega)]
        rw [Function.update_noteq (by omega)]
      · rw [if_neg hln]
        by_cases heq : ln = line0
        · subst heq
          rw [Function.update_same, if_pos (by omega)]
        · rw [Function.update_noteq heq, if_neg (by omega)]

lemma CA_rank_lines_none (T : Int) (sc : Nat → Option (Int × Int)) :
    ∀ remaining line0 delays ln, line0 ≤ ln → ln < line0 + remaining → sc ln = none →
      CA_rank_lines T sc delays line0 remaining = none
  | 0, line0, delays, ln, h1, h2, _ => by omega
  | remaining+1, line0, delays, ln, h1, h2, hn => by
      cases hsc : sc line0 with
      | none => simp [CA_rank_lines, hsc]
      | some w0 =>
          simp only [CA_rank_lines, hsc]
          have hne : ln ≠ line0 := fun he => by rw [he, hsc] at hn; cases hn
          exact CA_rank_lines_none T sc remaining (line0+1) _ ln (by omega) (by omega) hn

lemma ca_update_eq (T : Int) (d w : Int × Int) :
    ca_update T d w = (max d.1 (w.1 - T), min d.2 (w.2 - T)) := by
  unfold ca_update
  refine Prod.ext ?_ ?_
  · show (if w.1 - T > d.1 then w.1 - T else d.1) = _
    split_ifs with h
    · exact (max_eq_right (le_of_lt h)).symm
    · exact (max_eq_left (by omega)).symm
  · show (if w.2 - T < d.2 then w.2 - T else d.2) = _
    split_ifs with h
    · exact (min_eq_right (le_of_lt h)).symm
    · exact (min_eq_left (by omega)).symm

lemma fold_ca_update (T : Int) (f : Nat → Int × Int) :
    ∀ (l : List Nat) (d : Int × Int),
      l.foldl (fun a rk => ca_update T a (f rk)) d
        = (l.foldl (fun a rk => max a ((f rk).1 - T)) d.1,
           l.foldl (fun a rk => min a ((f rk).2 - T)) d.2)
  | [], d => rfl
  | rk :: l, d => by
      show List.foldl _ (ca_update T d (f rk)) l = _
      rw [fold_ca_update T f l (ca_update T d (f rk)), ca_update_eq]
      simp only [List.foldl_cons]

lemma CA_rank_loop_some (T : Int) (lines : Nat) (scan : Nat → Nat → Option (Int × Int))
    (w : Nat → Nat → Int × Int) :
    ∀ remaining rank0 delays,
      (∀ rk ln, rank0 ≤ rk → rk < rank0 + remaining → ln < lines →
        scan rk ln = some (w rk ln)) →
      CA_rank_loop T lines scan delays rank0 remaining
        = some (fun ln => if ln < lines
            then (List.range' rank0 remaining).foldl
                   (fun a rk => ca_update T a (w rk ln)) (delays ln)
            else delays ln)
  | 0, rank0, delays, _ => by
      simp only [CA_rank_loop, List.range']
      congr 1
      funext ln
      simp only [List.foldl_nil, ite_self]
  | remaining+1, rank0, delays, hall => by
      simp only [CA_rank_loop]
      rw [CA_rank_lines_some T (scan rank0) (w rank0) lines 0 delays
        (fun ln _ h2 => hall rank0 ln le_rfl (by omega) (by omega))]
      show CA_rank_loop T lines scan
        (fun ln => if 0 ≤ ln ∧ ln < 0 + lines
          then ca_update T (delays ln) (w rank0 ln) else delays ln) (rank0+1) remaining = _
      rw [CA_rank_loop_some T lines scan w remaining (rank0+1) _
        (fun rk ln h1 h2 hln => hall rk ln (by omega) (by omega) hln)]
      congr 1
      funext ln
      by_cases hln : ln < lines
      · rw [if_pos hln, if_pos hln]
        show _ = List.foldl _ (delays ln) (List.range' rank0 (remaining+1))
        rw [show List.range' rank0 (remaining+1) = rank0 :: List.range' (rank0+1) remaining
          from rfl]
        rw [List.foldl_cons]
        rw [if_pos ⟨Nat.zero_le ln, by omega⟩]
      · rw [if_neg hln, if_neg hln, if_neg (by omega)]

lemma CA_rank_loop_fail (T : Int) (lines : Nat) (scan : Nat → Nat → Option (Int × Int)) :
    ∀ remaining rank0 delays rk ln, rank0 ≤ rk → rk < rank0 + remaining → ln < lines →
      scan rk ln = none →
      CA_rank_loop T lines scan delays rank0 remaining = none
  | 0, rank0, _, rk, ln, h1, h2, _, _ => by omega
  | remaining+1, rank0, delays, rk, ln, h1, h2, hln, hnone => by
      by_cases hfail : ∃ ln', ln' < lines ∧ scan rank0 ln' = none
      · obtain ⟨ln', hln', hn'⟩ := hfail
        simp only [CA_rank_loop]
        rw [CA_rank_lines_none T (scan rank0) lines 0 delays ln' (Nat.zero_le ln')
          (by omega) hn']
      · push_neg at hfail
        have hsome : ∀ ln', 0 ≤ ln' → ln' < 0 + lines →
            scan rank0 ln' = some ((scan rank0 ln').getD (0, 0)) := by
          intro ln' _ h2'
          cases hsc : scan rank0 ln' with
          | none => exact absurd hsc (hfail ln' (by omega))
          | some v => rfl
        have hrk : rk ≠ rank0 := by
          intro he
          subst he
          exact hfail ln hln hnone
        simp only [CA_rank_loop]
        rw [CA_rank_lines_some T (scan rank0) (fun ln' => (scan rank0 ln').getD (0, 0))
          lines 0 delays hsome]
        show CA_rank_loop T lines scan
          (fun ln' => if 0 ≤ ln' ∧ ln' < 0 + lines
            then ca_update T (delays ln')
              ((fun ln' => (scan rank0 ln').getD (0, 0)) ln') else delays ln')
          (rank0+1) remaining = none
        exact CA_rank_loop_fail T lines scan remaining (rank0+1) _ rk ln (by omega)
          (by omega) hln hnone

/-- C5: in CA training, with `T = max_delay_taps`: (success case) when every
`(rank, line)` scan finds a window `w rk ln = (right, left)`, training
succeeds and each stored per-line envelope is the most conservative
aggregate of the per-rank windows normalized by one period —
`delays[line][0]` is the maximum of the normalized right edges starting
from `-T` and `delays[line][1]` the minimum of the normalized left edges
starting from `+T`; (failure case) any line producing no window makes CA
training report failure. -/
theorem CA_training_spec (T : Int) (ranks lines : Nat)
    (scan : Nat → Nat → Option (Int × Int)) :
    (∀ w : Nat → Nat → Int × Int,
      (∀ rk ln, rk < ranks → ln < lines → scan rk ln = some (w rk ln)) →
      ∃ d, CA_training T ranks lines scan = some d
        ∧ ∀ ln, ln < lines →
            d ln = ((List.range ranks).foldl (fun a rk => max a ((w rk ln).1 - T)) (-T),
                    (List.range ranks).foldl (fun a rk => min a ((w rk ln).2 - T)) T))
  ∧ (∀ rk ln, rk < ranks → ln < lines → scan rk ln = none →
      CA_training T ranks lines scan = none) := by
  constructor
  · intro w hw
    unfold CA_training
    rw [CA_rank_loop_some T lines scan w ranks 0 (CA_setup_array T)
      (fun rk ln _ h2 hln => hw rk ln (by omega) hln)]
    refine ⟨_, rfl, ?_⟩
    intro ln hln
    rw [if_pos hln]
    rw [show List.range' 0 ranks = List.range ranks from (List.range_eq_range' ranks).symm]
    rw [fold_ca_update T (fun rk => w rk ln) (List.range ranks) (CA_setup_array T ln)]
    simp only [CA_setup_array]
  · intro rk ln h1 h2 hn
    exact CA_rank_loop_fail T lines scan ranks 0 (CA_setup_array T) rk ln (Nat.zero_le rk)
      (by omega) h2 hn

/-- Witness for C5 at `T = 8`, 2 ranks, 1 line, every scan returning the
window `(3, 9)`: the envelope is `(-5, 1)`; and a scan returning `none`
fails. -/
theorem CA_training_spec_witness :
    (∃ d, CA_training 8 2 1 (fun _ _ => some (3, 9)) = some d
      ∧ ∀ ln, ln < 1 →
          d ln = ((List.range 2).foldl
                    (fun a rk => max a (((fun _ _ => ((3:Int), (9:Int))) rk ln).1 - 8)) (-8),
                  (List.range 2).foldl
                    (fun a rk => min a (((fun _ _ => ((3:Int), (9:Int))) rk ln).2 - 8)) 8))
  ∧ CA_training 8 2 1 (fun _ _ => (none : Option (Int × Int))) = none :=
  ⟨(CA_training_spec 8 2 1 (fun _ _ => some (3, 9))).1 (fun _ _ => (3, 9))
      (fun _ _ _ _ => rfl),
   (CA_training_spec 8 2 1 (fun _ _ => none)).2 0 0 (by omega) (by omega) rfl⟩

/-! ## CS_scan_single (C3)

Per tap, `ctx->cs.check` is probed under the primary shift and (unless
`training_type == HOST_RCD`) under the opposite shift; the raw `uint32_t`
bitmask results for tap `i` are the oracle pair `checks[i] = (primary,
opposite)`.  The static state (`helper_modules_without_shift`,
`helper_modules_seen`, `seen_working`) threads between taps.  `~x` on a
`uint32_t` mask is `cnot32`. -/

/-- `reduce_cs(cs, modules)`: AND of the low `modules` bits, as 0/1. -/
def reduce_cs (cs : Nat) (modules : Nat) : Nat :=
  let ok := (List.range modules).foldl (fun ok m => ok &&& ((cs >>> m) &&& 1)) 1
  if ok ≠ 0 then 1 else 0

/-- 32-bit complement `~x` of a `uint32_t` mask. -/
def cnot32 (x : Nat) : Nat := Nat.xor 0xFFFFFFFF x

structure CSScanState where
  without : Nat
  seen : Nat
  seenWorking : Bool
deriving DecidableEq

/-- `helper_modules_without_shift` as the filters see it (it is reset to 0
at the top of the tap body while `seen_working` is still false). -/
def cs_reset_without (st : CSScanState) : Nat :=
  if st.seenWorking = false then 0 else st.without

def cs_reset_seen (st : CSScanState) : Nat :=
  if st.seenWorking = false then 0 else st.seen

/-- The primary-shift bitmask after the two acceptance filters:
(a) `works & without == without`, (b) the newly-working set
`works & ~without` is disjoint from `seen`. -/
def cs_primary_accepted (primary : Nat) (st : CSScanState) : Nat :=
  let without := cs_reset_without st
  let seen := cs_reset_seen st
  let works := if primary &&& without = without then primary else 0
  let helper := works &&& cnot32 without
  if helper &&& cnot32 seen = helper then works else 0

/-- The opposite-shift bitmask after its filter: it must be disjoint from
the (just updated) `without` set; `HOST_RCD` never probes it (`works_`
stays 0). -/
def cs_opposite_accepted (rcd : Bool) (primary opposite : Nat) (st : CSScanState) : Nat :=
  if rcd = false then
    let without := cs_reset_without st ||| cs_primary_accepted primary st
    if opposite &&& cnot32 without = opposite then opposite else 0
  else 0

/-- One tap of `CS_scan_single`: returns the recorded value
(`reduce_cs(works, modules)`, 0 or 1) and the next static state. -/
def CS_scan_single_step (modules : Nat) (rcd : Bool) (primary opposite : Nat)
    (st : CSScanState) : Nat × CSScanState :=
  let wp := cs_primary_accepted primary st
  let wo := cs_opposite_accepted rcd primary opposite st
  let without := cs_reset_without st ||| wp
  let seen := (cs_reset_seen st ||| wp) ||| wo
  let works := if wp &&& wo ≠ 0 then 0 else wp ||| wo
  let recorded := reduce_cs works modules
  (recorded, ⟨without, seen, st.seenWorking || decide (recorded ≠ 0)⟩)

/-- The tap loop of `CS_scan_single`: the list of recorded values (in tap
order) and the final static state. -/
def CS_scan_single (modules : Nat) (rcd : Bool) :
    CSScanState → List (Nat × Nat) → List Nat × CSScanState
  | st, [] => ([], st)
  | st, pr :: rest =>
    let r := CS_scan_single_step modules rcd pr.1 pr.2 st
    let t := CS_scan_single modules rcd r.2 rest
    (r.1 :: t.1, t.2)

/-- Counterexample to C3 as stated: with 2 modules, direct topology, and
raw check bitmasks `(3, 0)` at tap 0 then `(3, 3)` at tap 1, the raw
primary and opposite bitmasks at tap 1 overlap (`3 &&& 3 ≠ 0`) yet the
recorded value at tap 1 is 1, not 0 — the rejection applies to the
*filtered* masks (the opposite mask is zeroed by its `~without` filter
first), not to the raw check results. -/
theorem CS_scan_works_reject_cex :
    ((3 : Nat) &&& (3 : Nat) ≠ 0)
    ∧ (CS_scan_single 2 false ⟨0, 0, false⟩ [(3, 0), (3, 3)]).1.get? 1 = some 1 := by
  decide

lemma foldl_and_zero : ∀ (l : List Nat),
    l.foldl (fun ok m => ok &&& (((0 : Nat) >>> m) &&& 1)) 0 = 0
  | [] => rfl
  | x :: l => by
      show l.foldl _ ((0 : Nat) &&& (((0 : Nat) >>> x) &&& 1)) = 0
      rw [Nat.zero_and]
      exact foldl_and_zero l

lemma reduce_cs_zero (modules : Nat) (hm : 1 ≤ modules) : reduce_cs 0 modules = 0 := by
  obtain ⟨k, rfl⟩ : ∃ k, modules = k + 1 := ⟨modules - 1, by omega⟩
  have hfold : (List.range (k+1)).foldl (fun ok m => ok &&& (((0 : Nat) >>> m) &&& 1)) 1
      = 0 := by
    rw [List.range_succ_eq_map, List.foldl_cons]
    have h1 : (1 : Nat) &&& (((0 : Nat) >>> 0) &&& 1) = 0 := by decide
    rw [h1]
    exact foldl_and_zero _
  simp only [reduce_cs, hfold]
  rfl

lemma CS_scan_single_get (modules : Nat) (rcd : Bool) :
    ∀ (checks : List (Nat × Nat)) (st0 : CSScanState) (i : Nat) (hi : i < checks.length),
      (CS_scan_single modules rcd st0 checks).1.get? i
        = some (CS_scan_single_step modules rcd (checks.get ⟨i, hi⟩).1 (checks.get ⟨i, hi⟩).2
            ((CS_scan_single modules rcd st0 (checks.take i)).2)).1
  | [], _, i, hi => by simp at hi
  | pr :: rest, st0, 0, hi => rfl
  | pr :: rest, st0, i+1, hi => by
      show (CS_scan_single modules rcd
        (CS_scan_single_step modules rcd pr.1 pr.2 st0).2 rest).1.get? i = _
      rw [CS_scan_single_get modules rcd rest
        (CS_scan_single_step modules rcd pr.1 pr.2 st0).2 i (by simpa using hi)]
      rfl

/-- C3 amended: in a CS scan pass (tap list = raw `(primary, opposite)`
check bitmasks, any initial state), the per-tap rejection applies to the
*accepted* (filtered) bitmasks: if the filtered primary mask `wp` and the
filtered opposite mask `wo` at tap `i` report some module simultaneously
(`wp &&& wo ≠ 0`), the value recorded for tap `i` is 0; in general the
recorded value is `reduce_cs` (AND across all module bits, as one boolean)
of the combined accepted mask `if wp &&& wo ≠ 0 then 0 else wp ||| wo`. -/
theorem CS_scan_works_reject (modules : Nat) (rcd : Bool) (st0 : CSScanState)
    (checks : List (Nat × Nat)) (i : Nat) (hi : i < checks.length) (hm : 1 ≤ modules)
    (st : CSScanState) (hst : st = (CS_scan_single modules rcd st0 (checks.take i)).2)
    (wp wo : Nat)
    (hwp : wp = cs_primary_accepted (checks.get ⟨i, hi⟩).1 st)
    (hwo : wo = cs_opposite_accepted rcd (checks.get ⟨i, hi⟩).1 (checks.get ⟨i, hi⟩).2 st) :
    (CS_scan_single modules rcd st0 checks).1.get? i
        = some (reduce_cs (if wp &&& wo ≠ 0 then 0 else wp ||| wo) modules)
    ∧ (wp &&& wo ≠ 0 → (CS_scan_single modules rcd st0 checks).1.get? i = some 0) := by
  subst hst hwp hwo
  have hmain := CS_scan_single_get modules rcd checks st0 i hi
  constructor
  · exact hmain
  · intro hover
    rw [hmain]
    show some (reduce_cs (if _ ≠ 0 then 0 else _) modules) = some 0
    rw [if_pos hover, reduce_cs_zero modules hm]

/-- Witness for the amended C3 at the counterexample input's tap 1:
`wp = 3`, `wo = 0`, recorded value `reduce_cs 3 2 = 1`. -/
theorem CS_scan_works_reject_witness :
    (CS_scan_single 2 false ⟨0, 0, false⟩ [(3, 0), (3, 3)]).1.get? 1
        = some (reduce_cs (if (3 : Nat) &&& 0 ≠ 0 then 0 else 3 ||| 0) 2)
    ∧ ((3 : Nat) &&& 0 ≠ 0 →
        (CS_scan_single 2 false ⟨0, 0, false⟩ [(3, 0), (3, 3)]).1.get? 1 = some 0) :=
  CS_scan_works_reject 2 false ⟨0, 0, false⟩ [(3, 0), (3, 3)] 1 (by decide) (by decide)
    ⟨3, 3, true⟩ (by decide) 3 0 (by decide) (by decide)

/-! ## write_data_scan (C7)

`serialOk cycle delay` / `lfsrOk cycle delay` abstract the results of
`write_serial_check` / `write_lfsr_check` at a given write-DQ cycle delay
and output delay (non-simulation build: the serial family is always
probed, the LFSR family only when the serial family passed).  The model
returns the data eye, the per-tap records `((cycle, delay), works)`, and
the list of cycles entered by the outer loop.  The outer `for` starts at
`write_strobe_cycle - 3` and runs while
`eye.state != AFTER && serial_only_eye.state != AFTER && cycle < 65 &&
cycle < write_strobe_cycle + 5`; since the cycle increments by one per
iteration, at most 8 iterations are possible, so fuel 8 makes the
fuel-indexed loop exact. -/

def wds_delay_loop (mx : Nat) (serialOk lfsrOk : Int → Nat → Bool) (cycle : Int) :
    Nat → Nat → Eye → Eye → List ((Int × Nat) × Bool) →
      Eye × Eye × List ((Int × Nat) × Bool)
  | _, 0, eye, seye, out => (eye, seye, out)
  | delay, fuel+1, eye, seye, out =>
    let sOk := serialOk cycle delay
    let works := sOk && lfsrOk cycle delay
    let eye :=
      if works = true ∧ eye.state = .BEFORE then
        { eye with start := cycle * ((mx : Nat) : Int) + ((delay : Nat) : Int),
                   state := .INSIDE }
      else if works = false ∧ eye.state = .INSIDE then
        { eye with stop := cycle * ((mx : Nat) : Int) + ((delay : Nat) : Int),
                   state := .AFTER }
      else eye
    let seye :=
      if sOk = true ∧ seye.state = .BEFORE then { seye with state := .INSIDE }
      else if sOk = false ∧ seye.state = .INSIDE then { seye with state := .AFTER }
      else seye
    wds_delay_loop mx serialOk lfsrOk cycle (delay+1) fuel eye seye
      (out ++ [((cycle, delay), works)])

def wds_cycle_loop (ws : Int) (mx : Nat) (serialOk lfsrOk : Int → Nat → Bool) :
    Int → Nat → Eye → Eye → List ((Int × Nat) × Bool) → List Int →
      Eye × List ((Int × Nat) × Bool) × List Int
  | _, 0, eye, _, out, visited => (eye, out, visited)
  | cycle, fuel+1, eye, seye, out, visited =>
    if eye.state ≠ .AFTER ∧ seye.state ≠ .AFTER ∧ cycle < 65 ∧ cycle < ws + 5 then
      let r := wds_delay_loop mx serialOk lfsrOk cycle 0 mx eye seye out
      wds_cycle_loop ws mx serialOk lfsrOk (cycle+1) fuel r.1 r.2.1 r.2.2
        (visited ++ [cycle])
    else (eye, out, visited)

/-- `write_data_scan(ctx, channel, rank, module, write_strobe_cycle, ...)`:
`ws` is `write_strobe_cycle`, `mx` is `ctx->max_delay_taps`. -/
def write_data_scan (ws : Int) (mx : Nat) (serialOk lfsrOk : Int → Nat → Bool) :
    Eye × List ((Int × Nat) × Bool) × List Int :=
  wds_cycle_loop ws mx serialOk lfsrOk (ws - 3) 8 DEFAULT_EYE DEFAULT_EYE [] []

/-- Counterexample to C7 as stated: with `write_strobe_cycle = 10` and
everything passing, the scan enters cycles `7..14` — it starts three
cycles before the write-strobe cycle, not one cycle before (9). -/
theorem write_data_scan_cycle_range_cex :
    (write_data_scan 10 1 (fun _ _ => true) (fun _ _ => true)).2.2
        = [7, 8, 9, 10, 11, 12, 13, 14]
    ∧ ¬ ((10 : Int) - 1 ≤ 7) := by
  decide

lemma wds_delay_loop_records (mx : Nat) (serialOk lfsrOk : Int → Nat → Bool) (cycle : Int) :
    ∀ fuel delay eye seye out,
      ∀ r ∈ (wds_delay_loop mx serialOk lfsrOk cycle delay fuel eye seye out).2.2,
        r ∈ out ∨ r.2 = (serialOk r.1.1 r.1.2 && lfsrOk r.1.1 r.1.2)
  | 0, _, _, _, _ => fun r hr => Or.inl hr
  | fuel+1, delay, eye, seye, out => by
      intro r hr
      simp only [wds_delay_loop] at hr
      rcases wds_delay_loop_records mx serialOk lfsrOk cycle fuel (delay+1) _ _ _ r hr with h | h
      · rcases List.mem_append.mp h with h2 | h2
        · exact Or.inl h2
        · right
          have he : r = ((cycle, delay), serialOk cycle delay && lfsrOk cycle delay) := by
            simpa using h2
          rw [he]
      · exact Or.inr h

lemma wds_cycle_loop_records (ws : Int) (mx : Nat) (serialOk lfsrOk : Int → Nat → Bool) :
    ∀ fuel cycle eye seye out visited,
      (∀ r ∈ out, r.2 = (serialOk r.1.1 r.1.2 && lfsrOk r.1.1 r.1.2)) →
      ∀ r ∈ (wds_cycle_loop ws mx serialOk lfsrOk cycle fuel eye seye out visited).2.1,
        r.2 = (serialOk r.1.1 r.1.2 && lfsrOk r.1.1 r.1.2)
  | 0, _, _, _, _, _ => fun hout r hr => hout r hr
  | fuel+1, cycle, eye, seye, out, visited => by
      intro hout r hr
      simp only [wds_cycle_loop] at hr
      by_cases hcond : (eye.state ≠ EyeState.AFTER ∧ seye.state ≠ EyeState.AFTER
          ∧ cycle < 65 ∧ cycle < ws + 5)
      · rw [if_pos hcond] at hr
        refine wds_cycle_loop_records ws mx serialOk lfsrOk fuel (cycle+1) _ _ _ _ ?_ r hr
        intro r' hr'
        rcases wds_delay_loop_records mx serialOk lfsrOk cycle mx 0 eye seye out r' hr'
          with h | h
        · exact hout r' h
        · exact h
      · rw [if_neg hcond] at hr
        exact hout r hr

lemma wds_cycle_loop_visited (ws : Int) (mx : Nat) (serialOk lfsrOk : Int → Nat → Bool) :
    ∀ fuel cycle eye seye out visited,
      ws - 3 ≤ cycle →
      (∀ v ∈ visited, ws - 3 ≤ v ∧ v < ws + 5 ∧ v < 65) →
      ∀ v ∈ (wds_cycle_loop ws mx serialOk lfsrOk cycle fuel eye seye out visited).2.2,
        ws - 3 ≤ v ∧ v < ws + 5 ∧ v < 65
  | 0, _, _, _, _, _ => fun _ hv v hvm => hv v hvm
  | fuel+1, cycle, eye, seye, out, visited => by
      intro hcyc hv v hvm
      simp only [wds_cycle_loop] at hvm
      by_cases hcond : (eye.state ≠ EyeState.AFTER ∧ seye.state ≠ EyeState.AFTER
          ∧ cycle < 65 ∧ cycle < ws + 5)
      · rw [if_pos hcond] at hvm
        refine wds_cycle_loop_visited ws mx serialOk lfsrOk fuel (cycle+1) _ _ _ _
          (by omega) ?_ v hvm
        intro v' hv'
        rcases List.mem_append.mp hv' with h | h
        · exact hv v' h
        · have he : v' = cycle := by simpa using h
          rw [he]
          exact ⟨hcyc, hcond.2.2.2, hcond.2.2.1⟩
      · rw [if_neg hcond] at hvm
        exact hv v hvm

lemma wds_cycle_loop_visited_prefix (ws : Int) (mx : Nat)
    (serialOk lfsrOk : Int → Nat → Bool) :
    ∀ fuel cycle eye seye out visited,
      ∃ l, (wds_cycle_loop ws mx serialOk lfsrOk cycle fuel eye seye out visited).2.2
        = visited ++ l
  | 0, _, _, _, _, visited => ⟨[], (List.append_nil visited).symm⟩
  | fuel+1, cycle, eye, seye, out, visited => by
      simp only [wds_cycle_loop]
      by_cases hcond : (eye.state ≠ EyeState.AFTER ∧ seye.state ≠ EyeState.AFTER
          ∧ cycle < 65 ∧ cycle < ws + 5)
      · rw [if_pos hcond]
        obtain ⟨l, hl⟩ := wds_cycle_loop_visited_prefix ws mx serialOk lfsrOk fuel (cycle+1)
          (wds_delay_loop mx serialOk lfsrOk cycle 0 mx eye seye out).1
          (wds_delay_loop mx serialOk lfsrOk cycle 0 mx eye seye out).2.1
          (wds_delay_loop mx serialOk lfsrOk cycle 0 mx eye seye out).2.2
          (visited ++ [cycle])
        rw [hl]
        exact ⟨[cycle] ++ l, by simp⟩
      · rw [if_neg hcond]
        exact ⟨[], (List.append_nil visited).symm⟩

lemma wds_cycle_loop_succ (ws : Int) (mx : Nat) (serialOk lfsrOk : Int → Nat → Bool)
    (cycle : Int) (fuel : Nat) (eye seye : Eye) (out : List ((Int × Nat) × Bool))
    (visited : List Int) :
    wds_cycle_loop ws mx serialOk lfsrOk cycle (fuel+1) eye seye out visited
      = if eye.state ≠ .AFTER ∧ seye.state ≠ .AFTER ∧ cycle < 65 ∧ cycle < ws + 5 then
          wds_cycle_loop ws mx serialOk lfsrOk (cycle+1) fuel
            (wds_delay_loop mx serialOk lfsrOk cycle 0 mx eye seye out).1
            (wds_delay_loop mx serialOk lfsrOk cycle 0 mx eye seye out).2.1
            (wds_delay_loop mx serialOk lfsrOk cycle 0 mx eye seye out).2.2
            (visited ++ [cycle])
        else (eye, out, visited) := rfl

/-- C7 amended: the write data-eye scan sweeps the write-DQ cycle delay
starting **three** cycles before the given write-strobe cycle, visiting
only cycles in `[ws - 3, ws + 5) ∩ (-∞, 65)` (stopping early once either
the data eye or the serial-only eye has closed), sweeping all
`max_delay_taps` output delays at each visited cycle, and classifies a tap
as working exactly when both the serial pattern family and the LFSR
pattern family succeed at that tap. -/
theorem write_data_scan_spec (ws : Int) (mx : Nat) (serialOk lfsrOk : Int → Nat → Bool)
    (h65 : ws - 3 < 65) :
    (∀ c ∈ (write_data_scan ws mx serialOk lfsrOk).2.2,
        ws - 3 ≤ c ∧ c < ws + 5 ∧ c < 65)
  ∧ (write_data_scan ws mx serialOk lfsrOk).2.2.head? = some (ws - 3)
  ∧ (∀ r ∈ (write_data_scan ws mx serialOk lfsrOk).2.1,
        r.2 = (serialOk r.1.1 r.1.2 && lfsrOk r.1.1 r.1.2)) := by
  refine ⟨?_, ?_, ?_⟩
  · exact wds_cycle_loop_visited ws mx serialOk lfsrOk 8 (ws - 3) DEFAULT_EYE DEFAULT_EYE
      [] [] le_rfl (fun v hv => by cases hv)
  · unfold write_data_scan
    show (wds_cycle_loop ws mx serialOk lfsrOk (ws - 3) (7+1)
      DEFAULT_EYE DEFAULT_EYE [] []).2.2.head? = some (ws - 3)
    rw [wds_cycle_loop_succ]
    rw [if_pos ⟨by decide, by decide, h65, by omega⟩]
    obtain ⟨l, hl⟩ := wds_cycle_loop_visited_prefix ws mx serialOk lfsrOk 7 (ws - 3 + 1)
      (wds_delay_loop mx serialOk lfsrOk (ws - 3) 0 mx DEFAULT_EYE DEFAULT_EYE []).1
      (wds_delay_loop mx serialOk lfsrOk (ws - 3) 0 mx DEFAULT_EYE DEFAULT_EYE []).2.1
      (wds_delay_loop mx serialOk lfsrOk (ws - 3) 0 mx DEFAULT_EYE DEFAULT_EYE []).2.2
      ([] ++ [ws - 3])
    rw [hl]
    simp
  · exact wds_cycle_loop_records ws mx serialOk lfsrOk 8 (ws - 3) DEFAULT_EYE DEFAULT_EYE
      [] [] (fun r hr => by cases hr)

/-- Witness for the amended C7 at `ws = 10`, `mx = 1`, all-passing checks. -/
theorem write_data_scan_spec_witness :
    (∀ c ∈ (write_data_scan 10 1 (fun _ _ => true) (fun _ _ => true)).2.2,
        (10:Int) - 3 ≤ c ∧ c < 10 + 5 ∧ c < 65)
  ∧ (write_data_scan 10 1 (fun _ _ => true) (fun _ _ => true)).2.2.head?
      = some (10 - 3)
  ∧ (∀ r ∈ (write_data_scan 10 1 (fun _ _ => true) (fun _ _ => true)).2.1,
        r.2 = ((fun _ _ => true) r.1.1 r.1.2 && (fun _ _ => true) r.1.1 r.1.2)) :=
  write_data_scan_spec 10 1 (fun _ _ => true) (fun _ _ => true) (by decide)

end DDR5
